import Mathlib

/-!
Verification of the fascraft module-dependency core (`fascraft.module_dependencies`):
the in-memory module dependency graph and analyzer.  The implementation module is
not shipped in this source snapshot (only its test suite is), so every definition
below is modelled from the specification of the component: the data model of §3,
the mutation/query/cycle-detection operations of §4, and the analyzer of §4.4.
Python dicts are rendered as insertion-ordered association lists, Python sets as
duplicate-free lists in insertion order (the spec requires deterministic iteration
for a given insertion order), and raised exceptions as `Except` results.
-/

namespace Fascraft

/-- Modelled from the spec: `ModuleDependency` (§3), an immutable record of one
directed edge (source depends on target) with type/strength/description and
optional provenance pointers.  `Path` values are opaque to the graph and are
modelled as strings. -/
structure ModuleDependency where
  source_module : String
  target_module : String
  dependency_type : String := "import"
  strength : String := "strong"
  description : String := ""
  file_path : Option String := none
  line_number : Option Nat := none
deriving Repr, DecidableEq

/-- Modelled from the spec: `ModuleInfo` (§3), the record for one module: identity,
owning path, caller metadata, the two edge lists (outgoing dependencies and incoming
dependents) and the cached cycle-membership annotation. -/
structure ModuleInfo where
  name : String
  path : String
  metadata : List (String × String) := []
  dependencies : List ModuleDependency := []
  dependents : List ModuleDependency := []
  is_circular : Bool := false
  circular_path : List String := []
deriving Repr, DecidableEq

/-- Modelled from the spec: `DependencyGraph` state (§3): the insertion-ordered
module map, and the two derived adjacency maps (`dependency_matrix`: name → set of
target names; `reverse_dependencies`: name → set of source names). -/
structure DependencyGraph where
  modules : List (String × ModuleInfo) := []
  dependency_matrix : List (String × List String) := []
  reverse_dependencies : List (String × List String) := []
deriving Repr, DecidableEq

/-- Lookup in an insertion-ordered association list (the shallow embedding of a
Python dict read). -/
def findVal {α : Type} (k : String) : List (String × α) → Option α
  | [] => none
  | (k', v) :: rest => if k' = k then some v else findVal k rest

/-- Update the value stored at a key, leaving the list unchanged when the key is
absent (the shallow embedding of a Python dict entry mutation). -/
def updateVal {α : Type} (k : String) (f : α → α) : List (String × α) → List (String × α)
  | [] => []
  | (k', v) :: rest => if k' = k then (k', f v) :: rest else (k', v) :: updateVal k f rest

/-- Insertion-ordered embedding of `set.add`: append the element unless present. -/
def insertIfAbsent (x : String) (l : List String) : List String :=
  if x ∈ l then l else l ++ [x]

/-- The registered module names, in insertion order. -/
def DependencyGraph.moduleNames (g : DependencyGraph) : List String :=
  g.modules.map Prod.fst

/-- The `ModuleInfo` registered under a name, if any. -/
def DependencyGraph.infoOf (g : DependencyGraph) (name : String) : Option ModuleInfo :=
  findVal name g.modules

/-- The adjacency row of a module: the set of names it depends on
(`dependency_matrix[name]`, empty when absent). -/
def DependencyGraph.targets (g : DependencyGraph) (name : String) : List String :=
  (findVal name g.dependency_matrix).getD []

/-- The reverse adjacency row of a module: the set of names depending on it
(`reverse_dependencies[name]`, empty when absent). -/
def DependencyGraph.sourcesOf (g : DependencyGraph) (name : String) : List String :=
  (findVal name g.reverse_dependencies).getD []

/-- Modelled from the spec: error taxonomy (§7): `ModuleNotFound` for edge
operations naming an unregistered module, and `CircularDependency` which always
carries the detected cycle(s) for diagnostics. -/
inductive GraphError where
  | moduleNotFound (message : String)
  | circularDependency (message : String) (cycles : List (List String))
deriving Repr, DecidableEq

instance {ε α : Type} [DecidableEq ε] [DecidableEq α] : DecidableEq (Except ε α) := fun x y =>
  match x, y with
  | .ok a, .ok b =>
    if h : a = b then isTrue (congrArg Except.ok h)
    else isFalse (fun hh => h (Except.ok.inj hh))
  | .error a, .error b =>
    if h : a = b then isTrue (congrArg Except.error h)
    else isFalse (fun hh => h (Except.error.inj hh))
  | .ok _, .error _ => isFalse (fun hh => Except.noConfusion hh)
  | .error _, .ok _ => isFalse (fun hh => Except.noConfusion hh)

/-- Modelled from the spec: `add_module` (§4.1).  Returns the `ModuleInfo` for the
name; if the name is already registered the existing record is returned unchanged
(idempotent registration, not an overwrite).  Otherwise the module is registered
and empty rows are initialized in `dependency_matrix` and `reverse_dependencies`. -/
def DependencyGraph.add_module (g : DependencyGraph) (name path : String)
    (metadata : List (String × String)) : ModuleInfo × DependencyGraph :=
  match findVal name g.modules with
  | some mi => (mi, g)
  | none =>
    let mi : ModuleInfo := { name := name, path := path, metadata := metadata }
    (mi, { modules := g.modules ++ [(name, mi)],
           dependency_matrix := g.dependency_matrix ++ [(name, [])],
           reverse_dependencies := g.reverse_dependencies ++ [(name, [])] })

/-- Modelled from the spec: `add_dependency` (§4.1).  Fails with `ModuleNotFound`
if source or target is unregistered (source checked first); otherwise appends the
new edge record to `modules[source].dependencies` and `modules[target].dependents`
and adds the names to the two adjacency rows. -/
def DependencyGraph.add_dependency (g : DependencyGraph)
    (source target dependency_type strengthArg descriptionArg : String) :
    Except GraphError DependencyGraph :=
  match findVal source g.modules with
  | none => .error (.moduleNotFound ("Source module " ++ source ++ " not found"))
  | some _ =>
    match findVal target g.modules with
    | none => .error (.moduleNotFound ("Target module " ++ target ++ " not found"))
    | some _ =>
      let dep : ModuleDependency :=
        { source_module := source, target_module := target,
          dependency_type := dependency_type, strength := strengthArg,
          description := descriptionArg }
      .ok { modules :=
              updateVal target (fun mi => { mi with dependents := mi.dependents ++ [dep] })
                (updateVal source (fun mi => { mi with dependencies := mi.dependencies ++ [dep] })
                  g.modules),
            dependency_matrix := updateVal source (insertIfAbsent target) g.dependency_matrix,
            reverse_dependencies := updateVal target (insertIfAbsent source) g.reverse_dependencies }

/-- Modelled from the spec: `remove_dependency` (§4.1): removes the matching
edge(s) from all four structures symmetrically; a no-op when no such edge exists. -/
def DependencyGraph.remove_dependency (g : DependencyGraph) (source target : String) :
    DependencyGraph :=
  let keepDep : ModuleDependency → Bool :=
    fun d => !(d.source_module == source && d.target_module == target)
  { modules :=
      updateVal target (fun mi => { mi with dependents := mi.dependents.filter keepDep })
        (updateVal source (fun mi => { mi with dependencies := mi.dependencies.filter keepDep })
          g.modules),
    dependency_matrix :=
      updateVal source (fun ts => ts.filter (fun t => !(t == target))) g.dependency_matrix,
    reverse_dependencies :=
      updateVal target (fun ss => ss.filter (fun s => !(s == source))) g.reverse_dependencies }

/-- Modelled from the spec: `get_dependencies` (§4.2): the ordered outgoing edge
list of a module, empty when none. -/
def DependencyGraph.get_dependencies (g : DependencyGraph) (name : String) :
    List ModuleDependency :=
  ((findVal name g.modules).map ModuleInfo.dependencies).getD []

/-- Modelled from the spec: `get_dependents` (§4.2): the ordered incoming edge
list of a module. -/
def DependencyGraph.get_dependents (g : DependencyGraph) (name : String) :
    List ModuleDependency :=
  ((findVal name g.modules).map ModuleInfo.dependents).getD []

/-- Modelled from the spec: `get_leaf_modules` (§4.2): names whose
`dependency_matrix` row is empty. -/
def DependencyGraph.get_leaf_modules (g : DependencyGraph) : List String :=
  (g.dependency_matrix.filter (fun p => p.2.isEmpty)).map Prod.fst

/-- Modelled from the spec: `get_root_modules` (§4.2): names whose
`reverse_dependencies` row is empty. -/
def DependencyGraph.get_root_modules (g : DependencyGraph) : List String :=
  (g.reverse_dependencies.filter (fun p => p.2.isEmpty)).map Prod.fst

/-- Modelled from the spec: the recursion of `get_module_depth` (§4.2) with its
per-call cycle protection: the set of names on the current recursion path is
carried down, and revisiting one fails with `CircularDependency` carrying the
offending path.  Fuel bounds the recursion for totality; it is never exhausted
before the path check fires. -/
def depthAux (g : DependencyGraph) : Nat → String → List String → Except GraphError Nat
  | 0, name, path =>
    .error (.circularDependency ("Circular dependency detected involving " ++ name)
      [path ++ [name]])
  | fuel + 1, name, path =>
    if name ∈ path then
      .error (.circularDependency ("Circular dependency detected involving " ++ name)
        [path ++ [name]])
    else
      let ts := g.targets name
      if ts.isEmpty then .ok 0
      else do
        let ds ← ts.mapM (fun t => depthAux g fuel t (path ++ [name]))
        .ok (1 + ds.foldl Nat.max 0)

/-- Modelled from the spec: `get_module_depth` (§4.2): 0 for a leaf, otherwise
one more than the maximum depth over the outgoing targets, failing with
`CircularDependency` when a cycle is reachable from the module. -/
def DependencyGraph.get_module_depth (g : DependencyGraph) (name : String) :
    Except GraphError Nat :=
  depthAux g (g.modules.length + 1) name []

/-- State of the shared depth-first search (§4.3): the global visited set, the
postorder output (used by the topological sort), and the cycles recorded so far. -/
structure DfsState where
  visited : List String
  order : List String
  cycles : List (List String)
deriving Repr, DecidableEq

/-- Traversal of a list of pending DFS children, left to right, by a given
per-child step. -/
def runChildren (f : String → DfsState → DfsState) : List String → DfsState → DfsState
  | [], s => s
  | t :: rest, s => runChildren f rest (f t s)

/-- Modelled from the spec: the underlying DFS machinery shared by cycle detection
and topological sorting (§4.3).  A node already on the recursion stack closes a
cycle — the stack slice from its first occurrence, closed by repeating it; an
already-visited node is skipped; otherwise the node is marked visited, its targets
are traversed with the node pushed on the stack, and the node is emitted in
postorder. -/
def cdfs (g : DependencyGraph) : Nat → String → List String → DfsState → DfsState
  | 0, _, _, s => s
  | fuel + 1, node, stack, s =>
    if node ∈ stack then
      { s with cycles := s.cycles ++ [stack.dropWhile (fun x => x != node) ++ [node]] }
    else if node ∈ s.visited then s
    else
      let s2 := runChildren (fun t st => cdfs g fuel t (stack ++ [node]) st)
        (g.targets node) { s with visited := s.visited ++ [node] }
      { s2 with order := s2.order ++ [node] }

/-- The full DFS run: depth-first search from every module in insertion order,
skipping already-visited starting points. -/
def DependencyGraph.runDfs (g : DependencyGraph) : DfsState :=
  g.moduleNames.foldl (fun s n => cdfs g (g.modules.length + 1) n [] s) ⟨[], [], []⟩

/-- Modelled from the spec: `find_circular_dependencies` (§4.3): all cycles
recorded by the shared DFS, each closed on its starting node. -/
def DependencyGraph.find_circular_dependencies (g : DependencyGraph) :
    List (List String) :=
  g.runDfs.cycles

/-- Modelled from the spec: `has_circular_dependencies` (§4.3). -/
def DependencyGraph.has_circular_dependencies (g : DependencyGraph) : Bool :=
  !g.find_circular_dependencies.isEmpty

/-- Modelled from the spec: `get_topological_order` (§4.3): fails with
`CircularDependency` naming the offending cycles when the graph is not a DAG,
and otherwise returns the DFS postorder — a dependency-first ordering of all
module names. -/
def DependencyGraph.get_topological_order (g : DependencyGraph) :
    Except GraphError (List String) :=
  if g.has_circular_dependencies then
    .error (.circularDependency
      "Cannot create topological order: circular dependencies detected"
      g.find_circular_dependencies)
  else
    .ok g.runDfs.order

/-- Modelled from the spec: `get_dependency_chain` is absent from the spec (§4
lists no such query); it is modelled from its test `test_simple_dependency_chain`
as the postorder of a single depth-first search from the given module over the
shared DFS machinery: the module together with its transitive dependency closure,
dependencies first. -/
def DependencyGraph.get_dependency_chain (g : DependencyGraph) (name : String) :
    List String :=
  (cdfs g (g.modules.length + 1) name [] ⟨[], [], []⟩).order

/-- Modelled from the spec: the per-module health report of
`analyze_module_health` (§4.4). -/
structure ModuleHealth where
  module_name : String
  dependency_count : Nat
  dependent_count : Nat
  depth : Int
  is_circular : Bool
  health_score : Nat
deriving Repr, DecidableEq

/-- Modelled from the spec: one optimization suggestion record (§4.4) with a
`type` ("critical"/"warning"/"info"), an `issue` title and a description. -/
structure OptimizationSuggestion where
  type : String
  issue : String
  description : String
deriving Repr, DecidableEq

/-- Modelled from the spec: `DependencyAnalyzer` (§4.4), a stateless facade over a
`DependencyGraph`. -/
structure DependencyAnalyzer where
  graph : DependencyGraph

/-- Modelled from the spec: `analyze_module_health` (§4.4): dependency/dependent
counts, depth (−1 when the depth query fails on a cyclic graph), cycle membership
via `find_circular_dependencies`, and a health score of 100 minus 30 when the
module is in a cycle and minus 10 when nothing depends on it. -/
def DependencyAnalyzer.analyze_module_health (a : DependencyAnalyzer) (name : String) :
    ModuleHealth :=
  let g := a.graph
  let depCount := (g.get_dependencies name).length
  let dentCount := (g.get_dependents name).length
  let circ := g.find_circular_dependencies.any (fun c => c.contains name)
  let depthVal : Int :=
    match g.get_module_depth name with
    | .ok d => (d : Int)
    | .error _ => -1
  { module_name := name,
    dependency_count := depCount,
    dependent_count := dentCount,
    depth := depthVal,
    is_circular := circ,
    health_score := 100 - (if circ then 30 else 0) - (if dentCount = 0 then 10 else 0) }

/-- Render one cycle for a human-readable suggestion. -/
def renderCycle (c : List String) : String :=
  String.intercalate " -> " c

/-- Modelled from the spec: `suggest_dependency_optimizations` (§4.4).  The one
hard contract is kept: whenever `has_circular_dependencies` is true a suggestion
of type "critical" is emitted naming the detected cycles; further suggestion
kinds are an open extension point and are not modelled. -/
def DependencyAnalyzer.suggest_dependency_optimizations (a : DependencyAnalyzer) :
    List OptimizationSuggestion :=
  let cycles := a.graph.find_circular_dependencies
  if a.graph.has_circular_dependencies then
    [{ type := "critical",
       issue := "Circular Dependencies Detected",
       description := "Found circular dependencies: " ++
         String.intercalate "; " (cycles.map renderCycle) }]
  else []

/-- One call of the mutating API, for stating properties over every sequence of
calls (§8). -/
inductive GraphCmd where
  | addModule (name path : String) (metadata : List (String × String))
  | addDep (source target dependency_type strengthArg descriptionArg : String)
  | removeDep (source target : String)
deriving Repr, DecidableEq

/-- Apply one API call to the graph; a failing `add_dependency` propagates its
error to the caller and leaves the graph unchanged. -/
def applyCmd (g : DependencyGraph) : GraphCmd → DependencyGraph
  | .addModule n p md => (g.add_module n p md).2
  | .addDep s t ty st d =>
    match g.add_dependency s t ty st d with
    | .ok g' => g'
    | .error _ => g
  | .removeDep s t => g.remove_dependency s t

/-- The graph reached from the empty graph by a sequence of API calls. -/
def applyCmds (cmds : List GraphCmd) : DependencyGraph :=
  cmds.foldl applyCmd {}

/-- Bounded reachability along dependency edges: `reachIn g k a b` holds when a
directed walk of between 1 and `k` edges leads from `a` to `b`. -/
def reachIn (g : DependencyGraph) : Nat → String → String → Bool
  | 0, _, _ => false
  | k + 1, a, b => (g.targets a).any (fun t => t == b || reachIn g k t b)

/-- Semantic acyclicity: no module reaches itself by a nonempty directed walk
(walks of length up to the module count suffice by pigeonhole). -/
def Acyclic (g : DependencyGraph) : Prop :=
  ∀ n ∈ g.moduleNames, reachIn g g.modules.length n n = false

instance (g : DependencyGraph) : Decidable (Acyclic g) :=
  inferInstanceAs (Decidable (∀ n ∈ g.moduleNames, reachIn g g.modules.length n n = false))

/-- Structural well-formedness of a graph state: module names are unique and
every adjacency target is a registered module. -/
def WFGraph (g : DependencyGraph) : Prop :=
  g.moduleNames.Nodup ∧ ∀ p ∈ g.dependency_matrix, ∀ t ∈ p.2, t ∈ g.moduleNames

instance (g : DependencyGraph) : Decidable (WFGraph g) :=
  inferInstanceAs (Decidable (_ ∧ _))

/-- Dependency-first order: every module in the list is preceded by each of its
dependency targets. -/
def DepFirst (g : DependencyGraph) (l : List String) : Prop :=
  ∀ A ∈ l, ∀ B ∈ g.targets A, List.Sublist [B, A] l

/-- The four-way consistency invariant of §3: `B ∈ dependency_matrix[A]` iff
`A ∈ reverse_dependencies[B]` iff a `ModuleDependency` with source `A` and target
`B` is in `modules[A].dependencies`, with that same record in
`modules[B].dependents`. -/
def Consistent (g : DependencyGraph) : Prop :=
  ∀ A B : String,
    (B ∈ g.targets A ↔ A ∈ g.sourcesOf B) ∧
    (B ∈ g.targets A ↔ ∃ d : ModuleDependency,
        d ∈ g.get_dependencies A ∧ d.source_module = A ∧ d.target_module = B ∧
        d ∈ g.get_dependents B)

/-- Bookkeeping invariant maintained by every mutation: adjacency keys mirror the
module map, the two adjacency maps mirror each other, and each stored edge record
is correctly labelled and mirrored by the adjacency rows. -/
structure GInv (g : DependencyGraph) : Prop where
  keysM : g.dependency_matrix.map Prod.fst = g.moduleNames
  keysR : g.reverse_dependencies.map Prod.fst = g.moduleNames
  mr : ∀ A B : String, B ∈ g.targets A ↔ A ∈ g.sourcesOf B
  depsSide : ∀ A : String, ∀ d ∈ g.get_dependencies A,
    d.source_module = A ∧ d.target_module ∈ g.targets A
  dentsSide : ∀ B : String, ∀ d ∈ g.get_dependents B,
    d.target_module = B ∧ d.source_module ∈ g.sourcesOf B
  depsComplete : ∀ A B : String, B ∈ g.targets A →
    ∃ d : ModuleDependency, d ∈ g.get_dependencies A ∧ d.source_module = A ∧
      d.target_module = B ∧ d ∈ g.get_dependents B

/-- One dependency edge, as a relation between names. -/
def edgeRel (g : DependencyGraph) (a b : String) : Prop :=
  b ∈ g.targets a

/-- The number of modules the DFS has not yet visited. -/
def ucount (g : DependencyGraph) (visited : List String) : Nat :=
  (g.moduleNames.filter (fun m => decide (m ∉ visited))).length

/-- Invariant of the shared DFS relative to the current recursion stack: the
postorder output is a duplicate-free list of visited modules closed under
dependency-first ordering, every visited node is either emitted or on the stack,
and the stack is a duplicate-free list of visited nodes disjoint from the
output. -/
structure DfsInv (g : DependencyGraph) (stack : List String) (s : DfsState) : Prop where
  ord_vis : ∀ x ∈ s.order, x ∈ s.visited
  vis_cover : ∀ x ∈ s.visited, x ∈ s.order ∨ x ∈ stack
  ord_nodup : s.order.Nodup
  vis_mod : ∀ x ∈ s.visited, x ∈ g.moduleNames
  ord_stack : ∀ x ∈ s.order, x ∉ stack
  ord_good : DepFirst g s.order
  stack_vis : ∀ x ∈ stack, x ∈ s.visited
  stack_nodup : stack.Nodup

/-- Postcondition of one DFS step on an acyclic graph: the invariant is
maintained, visited set and output only grow, and no cycle is recorded. -/
def DfsPost (g : DependencyGraph) (stack : List String) (s s' : DfsState) : Prop :=
  DfsInv g stack s' ∧ (∀ x ∈ s.visited, x ∈ s'.visited) ∧
    (∀ x ∈ s.order, x ∈ s'.order) ∧ s'.cycles = s.cycles

/-- A recorded cycle is closed on itself: at least one edge, first element equal
to last. -/
def ClosedCycle (c : List String) : Prop :=
  c.head? = c.getLast? ∧ 2 ≤ c.length

/-- The three-module chain of the spec's examples: user → auth → db. -/
def exChain : DependencyGraph :=
  applyCmds
    [.addModule "user" "modules/user" [],
     .addModule "auth" "modules/auth" [],
     .addModule "db" "modules/db" [],
     .addDep "user" "auth" "import" "strong" "",
     .addDep "auth" "db" "import" "strong" ""]

/-- The two-module cycle of the spec's examples: user → auth → user. -/
def exCycle2 : DependencyGraph :=
  applyCmds
    [.addModule "user" "modules/user" [],
     .addModule "auth" "modules/auth" [],
     .addDep "user" "auth" "import" "strong" "",
     .addDep "auth" "user" "import" "strong" ""]

/-- The three-module cycle of the tests: user → auth → db → user. -/
def exCycle3 : DependencyGraph :=
  applyCmds
    [.addModule "user" "modules/user" [],
     .addModule "auth" "modules/auth" [],
     .addModule "db" "modules/db" [],
     .addDep "user" "auth" "import" "strong" "",
     .addDep "auth" "db" "import" "strong" "",
     .addDep "db" "user" "import" "strong" ""]

/-- Two node-disjoint two-module cycles: a → b → a and c → d → c. -/
def exTwoCycles : DependencyGraph :=
  applyCmds
    [.addModule "a" "modules/a" [],
     .addModule "b" "modules/b" [],
     .addModule "c" "modules/c" [],
     .addModule "d" "modules/d" [],
     .addDep "a" "b" "import" "strong" "",
     .addDep "b" "a" "import" "strong" "",
     .addDep "c" "d" "import" "strong" "",
     .addDep "d" "c" "import" "strong" ""]

/-- A graph holding only the module "auth". -/
def exAuthOnly : DependencyGraph :=
  applyCmds [.addModule "auth" "modules/auth" []]

theorem findVal_append_of_none {α : Type} {k : String} {l₁ : List (String × α)}
    (l₂ : List (String × α)) (h : findVal k l₁ = none) :
    findVal k (l₁ ++ l₂) = findVal k l₂ := by
  induction l₁ with
  | nil => rfl
  | cons p rest ih =>
    obtain ⟨k', v⟩ := p
    by_cases hk : k' = k
    · simp [findVal, hk] at h
    · simp only [findVal, hk, if_false, List.cons_append] at h ⊢
      exact ih h

theorem findVal_append_of_some {α : Type} {k : String} {l₁ : List (String × α)}
    {v : α} (l₂ : List (String × α)) (h : findVal k l₁ = some v) :
    findVal k (l₁ ++ l₂) = some v := by
  induction l₁ with
  | nil => simp [findVal] at h
  | cons p rest ih =>
    obtain ⟨k', w⟩ := p
    by_cases hk : k' = k
    · simp_all [findVal]
    · simp only [findVal, hk, if_false, List.cons_append] at h ⊢
      exact ih h

theorem findVal_eq_none_of_not_mem {α : Type} {k : String} {l : List (String × α)}
    (h : k ∉ l.map Prod.fst) : findVal k l = none := by
  induction l with
  | nil => rfl
  | cons p rest ih =>
    obtain ⟨k', v⟩ := p
    simp only [List.map_cons, List.mem_cons] at h
    push_neg at h
    simp only [findVal]
    rw [if_neg (fun hh => h.1 hh.symm)]
    exact ih h.2

theorem mem_of_findVal_eq_some {α : Type} {k : String} {l : List (String × α)}
    {v : α} (h : findVal k l = some v) : (k, v) ∈ l := by
  induction l with
  | nil => simp [findVal] at h
  | cons p rest ih =>
    obtain ⟨k', w⟩ := p
    by_cases hk : k' = k
    · subst hk
      simp only [findVal, eq_self_iff_true, if_true, Option.some.injEq] at h
      exact List.mem_cons.mpr (Or.inl (by rw [h]))
    · simp only [findVal, hk, if_false] at h
      exact List.mem_cons_of_mem _ (ih h)

theorem findVal_isSome_of_mem {α : Type} {k : String} {l : List (String × α)}
    (h : k ∈ l.map Prod.fst) : ∃ v, findVal k l = some v := by
  induction l with
  | nil => simp at h
  | cons p rest ih =>
    obtain ⟨k', v⟩ := p
    by_cases hk : k' = k
    · exact ⟨v, by simp [findVal, hk]⟩
    · simp only [List.map_cons, List.mem_cons] at h
      rcases h with h | h
      · exact absurd h.symm hk
      · obtain ⟨w, hw⟩ := ih h
        exact ⟨w, by simp [findVal, hk, hw]⟩

theorem findVal_updateVal_self {α : Type} (k : String) (f : α → α)
    (l : List (String × α)) :
    findVal k (updateVal k f l) = (findVal k l).map f := by
  induction l with
  | nil => rfl
  | cons p rest ih =>
    obtain ⟨k', v⟩ := p
    by_cases hk : k' = k
    · simp [findVal, updateVal, hk]
    · simp [findVal, updateVal, hk, ih]

theorem findVal_updateVal_of_ne {α : Type} {k k' : String} (hne : k' ≠ k)
    (f : α → α) (l : List (String × α)) :
    findVal k' (updateVal k f l) = findVal k' l := by
  induction l with
  | nil => rfl
  | cons p rest ih =>
    obtain ⟨k'', v⟩ := p
    by_cases hk : k'' = k
    · have hcond : ¬k'' = k' := fun h => hne (h ▸ hk)
      simp [findVal, updateVal, hk, hcond, Ne.symm hne]
    · by_cases hk' : k'' = k'
      · simp [findVal, updateVal, hk, hk', hne]
      · simp [findVal, updateVal, hk, hk', ih]

theorem updateVal_map_fst {α : Type} (k : String) (f : α → α)
    (l : List (String × α)) :
    (updateVal k f l).map Prod.fst = l.map Prod.fst := by
  induction l with
  | nil => rfl
  | cons p rest ih =>
    obtain ⟨k', v⟩ := p
    by_cases hk : k' = k
    · simp [updateVal, hk]
    · simp [updateVal, hk, ih]

theorem mem_insertIfAbsent {x y : String} {l : List String} :
    y ∈ insertIfAbsent x l ↔ y ∈ l ∨ y = x := by
  unfold insertIfAbsent
  by_cases hx : x ∈ l
  · simp only [if_pos hx]
    constructor
    · exact fun h => Or.inl h
    · rintro (h | rfl)
      · exact h
      · exact hx
  · simp [if_neg hx]

theorem subset_insertIfAbsent (x : String) (l : List String) :
    ∀ y ∈ l, y ∈ insertIfAbsent x l :=
  fun _ hy => mem_insertIfAbsent.mpr (Or.inl hy)

theorem self_mem_insertIfAbsent (x : String) (l : List String) :
    x ∈ insertIfAbsent x l :=
  mem_insertIfAbsent.mpr (Or.inr rfl)

theorem mem_moduleNames_of_findVal {g : DependencyGraph} {n : String} {mi : ModuleInfo}
    (h : findVal n g.modules = some mi) : n ∈ g.moduleNames := by
  unfold DependencyGraph.moduleNames
  exact List.mem_map.mpr ⟨(n, mi), mem_of_findVal_eq_some h, rfl⟩

theorem targets_addDep {g g' : DependencyGraph} {s t : String}
    (h : g'.dependency_matrix = updateVal s (insertIfAbsent t) g.dependency_matrix)
    (hrow : s ∈ g.dependency_matrix.map Prod.fst) (A : String) :
    g'.targets A = if A = s then insertIfAbsent t (g.targets s) else g.targets A := by
  unfold DependencyGraph.targets
  rw [h]
  by_cases hA : A = s
  · subst hA
    rw [findVal_updateVal_self]
    obtain ⟨v, hv⟩ := findVal_isSome_of_mem hrow
    rw [hv]
    simp
  · rw [findVal_updateVal_of_ne hA]
    simp [hA]

theorem sources_addDep {g g' : DependencyGraph} {s t : String}
    (h : g'.reverse_dependencies = updateVal t (insertIfAbsent s) g.reverse_dependencies)
    (hrow : t ∈ g.reverse_dependencies.map Prod.fst) (B : String) :
    g'.sourcesOf B = if B = t then insertIfAbsent s (g.sourcesOf t) else g.sourcesOf B := by
  unfold DependencyGraph.sourcesOf
  rw [h]
  by_cases hB : B = t
  · subst hB
    rw [findVal_updateVal_self]
    obtain ⟨v, hv⟩ := findVal_isSome_of_mem hrow
    rw [hv]
    simp
  · rw [findVal_updateVal_of_ne hB]
    simp [hB]

theorem deps_addDep {g g' : DependencyGraph} {s t : String} {dep : ModuleDependency}
    {ms : ModuleInfo}
    (h : g'.modules =
      updateVal t (fun mi => { mi with dependents := mi.dependents ++ [dep] })
        (updateVal s (fun mi => { mi with dependencies := mi.dependencies ++ [dep] })
          g.modules))
    (hs : findVal s g.modules = some ms) (A : String) :
    g'.get_dependencies A = g.get_dependencies A ++ (if A = s then [dep] else []) := by
  unfold DependencyGraph.get_dependencies
  rw [h]
  have h1 : (findVal A (updateVal t
      (fun mi => { mi with dependents := mi.dependents ++ [dep] })
      (updateVal s (fun mi => { mi with dependencies := mi.dependencies ++ [dep] })
        g.modules))).map ModuleInfo.dependencies =
      (findVal A (updateVal s (fun mi => { mi with dependencies := mi.dependencies ++ [dep] })
        g.modules)).map ModuleInfo.dependencies := by
    by_cases hA : A = t
    · subst hA
      rw [findVal_updateVal_self]
      cases findVal A (updateVal s
        (fun mi => { mi with dependencies := mi.dependencies ++ [dep] }) g.modules) <;> simp
    · rw [findVal_updateVal_of_ne hA]
  rw [h1]
  by_cases hA : A = s
  · subst hA
    rw [findVal_updateVal_self, hs]
    simp
  · rw [findVal_updateVal_of_ne hA]
    simp [hA]

theorem dents_addDep {g g' : DependencyGraph} {s t : String} {dep : ModuleDependency}
    {mt : ModuleInfo}
    (h : g'.modules =
      updateVal t (fun mi => { mi with dependents := mi.dependents ++ [dep] })
        (updateVal s (fun mi => { mi with dependencies := mi.dependencies ++ [dep] })
          g.modules))
    (ht : findVal t g.modules = some mt) (B : String) :
    g'.get_dependents B = g.get_dependents B ++ (if B = t then [dep] else []) := by
  unfold DependencyGraph.get_dependents
  rw [h]
  have h2 : (findVal B (updateVal s
      (fun mi => { mi with dependencies := mi.dependencies ++ [dep] })
        g.modules)).map ModuleInfo.dependents =
      (findVal B g.modules).map ModuleInfo.dependents := by
    by_cases hB : B = s
    · subst hB
      rw [findVal_updateVal_self]
      cases findVal B g.modules <;> simp
    · rw [findVal_updateVal_of_ne hB]
  by_cases hB : B = t
  · subst hB
    rw [findVal_updateVal_self]
    have hin : ∃ v, findVal B (updateVal s
        (fun mi => { mi with dependencies := mi.dependencies ++ [dep] }) g.modules) = some v := by
      apply findVal_isSome_of_mem
      rw [updateVal_map_fst]
      exact List.mem_map.mpr ⟨(B, mt), mem_of_findVal_eq_some ht, rfl⟩
    obtain ⟨v, hv⟩ := hin
    rw [hv] at h2
    rw [ht] at h2
    simp only [Option.map_some', Option.some.injEq] at h2
    rw [hv]
    simp [h2, ht]
  · rw [findVal_updateVal_of_ne hB, h2]
    simp [hB]

theorem targets_removeDep {g g' : DependencyGraph} {s t : String}
    (h : g'.dependency_matrix =
      updateVal s (fun ts => ts.filter (fun x => !(x == t))) g.dependency_matrix)
    (A : String) :
    g'.targets A =
      if A = s then (g.targets s).filter (fun x => !(x == t)) else g.targets A := by
  unfold DependencyGraph.targets
  rw [h]
  by_cases hA : A = s
  · subst hA
    rw [findVal_updateVal_self]
    cases findVal A g.dependency_matrix <;> simp
  · rw [findVal_updateVal_of_ne hA]
    simp [hA]

theorem sources_removeDep {g g' : DependencyGraph} {s t : String}
    (h : g'.reverse_dependencies =
      updateVal t (fun ss => ss.filter (fun x => !(x == s))) g.reverse_dependencies)
    (B : String) :
    g'.sourcesOf B =
      if B = t then (g.sourcesOf t).filter (fun x => !(x == s)) else g.sourcesOf B := by
  unfold DependencyGraph.sourcesOf
  rw [h]
  by_cases hB : B = t
  · subst hB
    rw [findVal_updateVal_self]
    cases findVal B g.reverse_dependencies <;> simp
  · rw [findVal_updateVal_of_ne hB]
    simp [hB]

theorem deps_removeDep {g g' : DependencyGraph} {s t : String}
    {keep keepT : ModuleDependency → Bool}
    (h : g'.modules =
      updateVal t (fun mi => { mi with dependents := mi.dependents.filter keepT })
        (updateVal s (fun mi => { mi with dependencies := mi.dependencies.filter keep })
          g.modules))
    (A : String) :
    g'.get_dependencies A =
      if A = s then (g.get_dependencies s).filter keep else g.get_dependencies A := by
  unfold DependencyGraph.get_dependencies
  rw [h]
  have h1 : (findVal A (updateVal t (fun mi => { mi with dependents := mi.dependents.filter keepT })
      (updateVal s (fun mi => { mi with dependencies := mi.dependencies.filter keep })
        g.modules))).map ModuleInfo.dependencies =
      (findVal A (updateVal s (fun mi => { mi with dependencies := mi.dependencies.filter keep })
        g.modules)).map ModuleInfo.dependencies := by
    by_cases hA : A = t
    · subst hA
      rw [findVal_updateVal_self]
      cases findVal A (updateVal s
        (fun mi => { mi with dependencies := mi.dependencies.filter keep }) g.modules) <;> simp
    · rw [findVal_updateVal_of_ne hA]
  rw [h1]
  by_cases hA : A = s
  · subst hA
    rw [findVal_updateVal_self]
    cases findVal A g.modules <;> simp
  · rw [findVal_updateVal_of_ne hA]
    simp [hA]

theorem dents_removeDep {g g' : DependencyGraph} {s t : String}
    {keep keepT : ModuleDependency → Bool}
    (h : g'.modules =
      updateVal t (fun mi => { mi with dependents := mi.dependents.filter keepT })
        (updateVal s (fun mi => { mi with dependencies := mi.dependencies.filter keep })
          g.modules))
    (B : String) :
    g'.get_dependents B =
      if B = t then (g.get_dependents t).filter keepT else g.get_dependents B := by
  unfold DependencyGraph.get_dependents
  rw [h]
  have h2 : (findVal B (updateVal s
      (fun mi => { mi with dependencies := mi.dependencies.filter keep })
        g.modules)).map ModuleInfo.dependents =
      (findVal B g.modules).map ModuleInfo.dependents := by
    by_cases hC : B = s
    · subst hC
      rw [findVal_updateVal_self]
      cases findVal B g.modules <;> simp
    · rw [findVal_updateVal_of_ne hC]
  by_cases hB : B = t
  · subst hB
    rw [findVal_updateVal_self]
    cases hx : findVal B (updateVal s
        (fun mi => { mi with dependencies := mi.dependencies.filter keep }) g.modules) with
    | none =>
      rw [hx] at h2
      have hy : findVal B g.modules = none := by
        cases hyy : findVal B g.modules with
        | none => rfl
        | some w => rw [hyy] at h2; simp at h2
      rw [hy]
      simp
    | some v =>
      rw [hx] at h2
      cases hy : findVal B g.modules with
      | none => rw [hy] at h2; simp at h2
      | some w =>
        rw [hy] at h2
        simp only [Option.map_some', Option.some.injEq] at h2
        simp [h2]
  · rw [findVal_updateVal_of_ne hB, h2]
    simp [hB]

theorem targets_addModule {g g' : DependencyGraph} {n : String}
    (h : g'.dependency_matrix = g.dependency_matrix ++ [(n, [])]) (A : String) :
    g'.targets A = g.targets A := by
  unfold DependencyGraph.targets
  rw [h]
  cases hA : findVal A g.dependency_matrix with
  | some v => rw [findVal_append_of_some _ hA]
  | none =>
    rw [findVal_append_of_none _ hA]
    simp only [findVal]
    split <;> simp

theorem sources_addModule {g g' : DependencyGraph} {n : String}
    (h : g'.reverse_dependencies = g.reverse_dependencies ++ [(n, [])]) (B : String) :
    g'.sourcesOf B = g.sourcesOf B := by
  unfold DependencyGraph.sourcesOf
  rw [h]
  cases hB : findVal B g.reverse_dependencies with
  | some v => rw [findVal_append_of_some _ hB]
  | none =>
    rw [findVal_append_of_none _ hB]
    simp only [findVal]
    split <;> simp

theorem deps_addModule {g g' : DependencyGraph} {n p : String}
    {md : List (String × String)}
    (h : g'.modules = g.modules ++ [(n, { name := n, path := p, metadata := md })])
    (A : String) : g'.get_dependencies A = g.get_dependencies A := by
  unfold DependencyGraph.get_dependencies
  rw [h]
  cases hA : findVal A g.modules with
  | some v => rw [findVal_append_of_some _ hA]
  | none =>
    rw [findVal_append_of_none _ hA]
    simp only [findVal]
    split <;> simp

theorem dents_addModule {g g' : DependencyGraph} {n p : String}
    {md : List (String × String)}
    (h : g'.modules = g.modules ++ [(n, { name := n, path := p, metadata := md })])
    (B : String) : g'.get_dependents B = g.get_dependents B := by
  unfold DependencyGraph.get_dependents
  rw [h]
  cases hB : findVal B g.modules with
  | some v => rw [findVal_append_of_some _ hB]
  | none =>
    rw [findVal_append_of_none _ hB]
    simp only [findVal]
    split <;> simp

theorem mem_filter_ne {x y : String} {l : List String} :
    x ∈ l.filter (fun z => !(z == y)) ↔ x ∈ l ∧ x ≠ y := by
  simp [List.mem_filter]

theorem ginv_empty : GInv {} := by
  constructor <;>
    simp [DependencyGraph.targets, DependencyGraph.sourcesOf,
      DependencyGraph.get_dependencies, DependencyGraph.get_dependents,
      DependencyGraph.moduleNames, findVal]

theorem ginv_addModule (g : DependencyGraph) (hg : GInv g) (n p : String)
    (md : List (String × String)) : GInv (applyCmd g (.addModule n p md)) := by
  show GInv (g.add_module n p md).2
  cases hf : findVal n g.modules with
  | some mi =>
    simp only [DependencyGraph.add_module, hf]
    exact hg
  | none =>
    have hmodN : (g.add_module n p md).2.modules =
        g.modules ++ [(n, { name := n, path := p, metadata := md })] := by
      simp only [DependencyGraph.add_module, hf]
    have hmtxN : (g.add_module n p md).2.dependency_matrix =
        g.dependency_matrix ++ [(n, [])] := by
      simp only [DependencyGraph.add_module, hf]
    have hrevN : (g.add_module n p md).2.reverse_dependencies =
        g.reverse_dependencies ++ [(n, [])] := by
      simp only [DependencyGraph.add_module, hf]
    have hT := targets_addModule hmtxN
    have hS := sources_addModule hrevN
    have hD := deps_addModule hmodN
    have hDe := dents_addModule hmodN
    have hnames : (g.add_module n p md).2.moduleNames = g.moduleNames ++ [n] := by
      unfold DependencyGraph.moduleNames
      rw [hmodN]
      simp [DependencyGraph.moduleNames]
    refine ⟨?_, ?_, ?_, ?_, ?_, ?_⟩
    · rw [hmtxN, hnames]
      have hk := hg.keysM
      simp [hk]
    · rw [hrevN, hnames]
      have hk := hg.keysR
      simp [hk]
    · intro A B
      rw [hT A, hS B]
      exact hg.mr A B
    · intro A dd hd
      rw [hD A] at hd
      rw [hT A]
      exact hg.depsSide A dd hd
    · intro B dd hd
      rw [hDe B] at hd
      rw [hS B]
      exact hg.dentsSide B dd hd
    · intro A B hB
      rw [hT A] at hB
      obtain ⟨dd, hd1, hd2, hd3, hd4⟩ := hg.depsComplete A B hB
      refine ⟨dd, ?_, hd2, hd3, ?_⟩
      · rw [hD A]; exact hd1
      · rw [hDe B]; exact hd4

theorem ginv_addDep (g : DependencyGraph) (hg : GInv g) (s t ty st d : String) :
    GInv (applyCmd g (.addDep s t ty st d)) := by
  cases hfs : findVal s g.modules with
  | none =>
    simp only [applyCmd, DependencyGraph.add_dependency, hfs]
    exact hg
  | some ms =>
    cases hft : findVal t g.modules with
    | none =>
      simp only [applyCmd, DependencyGraph.add_dependency, hfs, hft]
      exact hg
    | some mt =>
      have hmod : (applyCmd g (.addDep s t ty st d)).modules =
          updateVal t
            (fun mi => { mi with dependents := mi.dependents ++ [⟨s, t, ty, st, d, none, none⟩] })
            (updateVal s
              (fun mi => { mi with dependencies := mi.dependencies ++ [⟨s, t, ty, st, d, none, none⟩] })
              g.modules) := by
        simp only [applyCmd, DependencyGraph.add_dependency, hfs, hft]
      have hmtx : (applyCmd g (.addDep s t ty st d)).dependency_matrix =
          updateVal s (insertIfAbsent t) g.dependency_matrix := by
        simp only [applyCmd, DependencyGraph.add_dependency, hfs, hft]
      have hrev : (applyCmd g (.addDep s t ty st d)).reverse_dependencies =
          updateVal t (insertIfAbsent s) g.reverse_dependencies := by
        simp only [applyCmd, DependencyGraph.add_dependency, hfs, hft]
      have hsM : s ∈ g.dependency_matrix.map Prod.fst := by
        rw [hg.keysM]; exact mem_moduleNames_of_findVal hfs
      have htR : t ∈ g.reverse_dependencies.map Prod.fst := by
        rw [hg.keysR]; exact mem_moduleNames_of_findVal hft
      have hT := targets_addDep hmtx hsM
      have hS := sources_addDep hrev htR
      have hD := deps_addDep hmod hfs
      have hDe := dents_addDep hmod hft
      have hnames : (applyCmd g (.addDep s t ty st d)).moduleNames = g.moduleNames := by
        unfold DependencyGraph.moduleNames
        rw [hmod, updateVal_map_fst, updateVal_map_fst]
      refine ⟨?_, ?_, ?_, ?_, ?_, ?_⟩
      · rw [hmtx, hnames, updateVal_map_fst]
        exact hg.keysM
      · rw [hrev, hnames, updateVal_map_fst]
        exact hg.keysR
      · intro A B
        rw [hT A, hS B]
        by_cases hA : A = s
        · by_cases hB : B = t
          · rw [if_pos hA, if_pos hB]
            constructor
            · intro _
              rw [hA]
              exact self_mem_insertIfAbsent s _
            · intro _
              rw [hB]
              exact self_mem_insertIfAbsent t _
          · rw [if_pos hA, if_neg hB, mem_insertIfAbsent]
            constructor
            · rintro (h | h)
              · rw [hA]
                exact (hg.mr s B).mp h
              · exact absurd h hB
            · intro h
              rw [hA] at h
              exact Or.inl ((hg.mr s B).mpr h)
        · by_cases hB : B = t
          · rw [if_neg hA, if_pos hB, mem_insertIfAbsent]
            constructor
            · intro h
              rw [hB] at h
              exact Or.inl ((hg.mr A t).mp h)
            · rintro (h | h)
              · rw [hB]
                exact (hg.mr A t).mpr h
              · exact absurd h hA
          · rw [if_neg hA, if_neg hB]
            exact hg.mr A B
      · intro A dd hd
        rw [hD A, List.mem_append] at hd
        rcases hd with hd | hd
        · obtain ⟨h1, h2⟩ := hg.depsSide A dd hd
          refine ⟨h1, ?_⟩
          rw [hT A]
          by_cases hA : A = s
          · rw [if_pos hA]
            rw [hA] at h2
            exact subset_insertIfAbsent t _ _ h2
          · rw [if_neg hA]
            exact h2
        · by_cases hA : A = s
          · rw [if_pos hA, List.mem_singleton] at hd
            subst hd
            refine ⟨hA.symm, ?_⟩
            rw [hT A, if_pos hA]
            exact self_mem_insertIfAbsent t _
          · rw [if_neg hA] at hd
            simp at hd
      · intro B dd hd
        rw [hDe B, List.mem_append] at hd
        rcases hd with hd | hd
        · obtain ⟨h1, h2⟩ := hg.dentsSide B dd hd
          refine ⟨h1, ?_⟩
          rw [hS B]
          by_cases hB : B = t
          · rw [if_pos hB]
            rw [hB] at h2
            exact subset_insertIfAbsent s _ _ h2
          · rw [if_neg hB]
            exact h2
        · by_cases hB : B = t
          · rw [if_pos hB, List.mem_singleton] at hd
            subst hd
            refine ⟨hB.symm, ?_⟩
            rw [hS B, if_pos hB]
            exact self_mem_insertIfAbsent s _
          · rw [if_neg hB] at hd
            simp at hd
      · intro A B hB
        rw [hT A] at hB
        by_cases hA : A = s
        · rw [if_pos hA, mem_insertIfAbsent] at hB
          rcases hB with hB | hB
          · rw [← hA] at hB
            obtain ⟨dd, hd1, hd2, hd3, hd4⟩ := hg.depsComplete A B hB
            refine ⟨dd, ?_, hd2, hd3, ?_⟩
            · rw [hD A]
              exact List.mem_append_left _ hd1
            · rw [hDe B]
              exact List.mem_append_left _ hd4
          · refine ⟨⟨s, t, ty, st, d, none, none⟩, ?_, hA.symm, hB.symm, ?_⟩
            · rw [hD A, if_pos hA]
              exact List.mem_append_right _ (List.mem_singleton.mpr rfl)
            · rw [hDe B, if_pos hB]
              exact List.mem_append_right _ (List.mem_singleton.mpr rfl)
        · rw [if_neg hA] at hB
          obtain ⟨dd, hd1, hd2, hd3, hd4⟩ := hg.depsComplete A B hB
          refine ⟨dd, ?_, hd2, hd3, ?_⟩
          · rw [hD A, if_neg hA, List.append_nil]
            exact hd1
          · rw [hDe B]
            exact List.mem_append_left _ hd4

theorem ginv_removeDep (g : DependencyGraph) (hg : GInv g) (s t : String) :
    GInv (applyCmd g (.removeDep s t)) := by
  have hmod : (applyCmd g (.removeDep s t)).modules =
      updateVal t
        (fun mi => { mi with dependents := mi.dependents.filter (fun dd => !(dd.source_module == s && dd.target_module == t)) })
        (updateVal s
          (fun mi => { mi with dependencies := mi.dependencies.filter (fun dd => !(dd.source_module == s && dd.target_module == t)) })
          g.modules) := rfl
  have hmtx : (applyCmd g (.removeDep s t)).dependency_matrix =
      updateVal s (fun ts => ts.filter (fun x => !(x == t))) g.dependency_matrix := rfl
  have hrev : (applyCmd g (.removeDep s t)).reverse_dependencies =
      updateVal t (fun ss => ss.filter (fun x => !(x == s))) g.reverse_dependencies := rfl
  have hT := targets_removeDep hmtx
  have hS := sources_removeDep hrev
  have hD := deps_removeDep hmod
  have hDe := dents_removeDep hmod
  have hnames : (applyCmd g (.removeDep s t)).moduleNames = g.moduleNames := by
    unfold DependencyGraph.moduleNames
    rw [hmod, updateVal_map_fst, updateVal_map_fst]
  refine ⟨?_, ?_, ?_, ?_, ?_, ?_⟩
  · rw [hmtx, hnames, updateVal_map_fst]
    exact hg.keysM
  · rw [hrev, hnames, updateVal_map_fst]
    exact hg.keysR
  · intro A B
    rw [hT A, hS B]
    by_cases hA : A = s
    · by_cases hB : B = t
      · rw [if_pos hA, if_pos hB, mem_filter_ne, mem_filter_ne]
        constructor
        · rintro ⟨_, hne⟩
          exact absurd hB hne
        · rintro ⟨_, hne⟩
          exact absurd hA hne
      · rw [if_pos hA, if_neg hB, mem_filter_ne]
        constructor
        · rintro ⟨h, _⟩
          rw [hA]
          exact (hg.mr s B).mp h
        · intro h
          rw [hA] at h
          exact ⟨(hg.mr s B).mpr h, hB⟩
    · by_cases hB : B = t
      · rw [if_neg hA, if_pos hB, mem_filter_ne]
        constructor
        · intro h
          rw [hB] at h
          exact ⟨(hg.mr A t).mp h, hA⟩
        · rintro ⟨h, _⟩
          rw [hB]
          exact (hg.mr A t).mpr h
      · rw [if_neg hA, if_neg hB]
        exact hg.mr A B
  · intro A dd hd
    rw [hD A] at hd
    by_cases hA : A = s
    · rw [if_pos hA, List.mem_filter] at hd
      obtain ⟨hd, hkeep⟩ := hd
      rw [← hA] at hd
      obtain ⟨h1, h2⟩ := hg.depsSide A dd hd
      refine ⟨h1, ?_⟩
      rw [hT A, if_pos hA, mem_filter_ne]
      rw [hA] at h2
      refine ⟨h2, ?_⟩
      intro hEq
      rw [h1, hA, hEq] at hkeep
      simp at hkeep
    · rw [if_neg hA] at hd
      obtain ⟨h1, h2⟩ := hg.depsSide A dd hd
      refine ⟨h1, ?_⟩
      rw [hT A, if_neg hA]
      exact h2
  · intro B dd hd
    rw [hDe B] at hd
    by_cases hB : B = t
    · rw [if_pos hB, List.mem_filter] at hd
      obtain ⟨hd, hkeep⟩ := hd
      rw [← hB] at hd
      obtain ⟨h1, h2⟩ := hg.dentsSide B dd hd
      refine ⟨h1, ?_⟩
      rw [hS B, if_pos hB, mem_filter_ne]
      rw [hB] at h2
      refine ⟨h2, ?_⟩
      intro hEq
      rw [h1, hB, hEq] at hkeep
      simp at hkeep
    · rw [if_neg hB] at hd
      obtain ⟨h1, h2⟩ := hg.dentsSide B dd hd
      refine ⟨h1, ?_⟩
      rw [hS B, if_neg hB]
      exact h2
  · intro A B hB
    rw [hT A] at hB
    by_cases hA : A = s
    · rw [if_pos hA, mem_filter_ne] at hB
      obtain ⟨hB, hBne⟩ := hB
      rw [← hA] at hB
      obtain ⟨dd, hd1, hd2, hd3, hd4⟩ := hg.depsComplete A B hB
      refine ⟨dd, ?_, hd2, hd3, ?_⟩
      · rw [hD A, if_pos hA, List.mem_filter]
        refine ⟨?_, ?_⟩
        · rw [← hA]
          exact hd1
        · simp [hd3, hBne]
      · rw [hDe B, if_neg hBne]
        exact hd4
    · rw [if_neg hA] at hB
      obtain ⟨dd, hd1, hd2, hd3, hd4⟩ := hg.depsComplete A B hB
      refine ⟨dd, ?_, hd2, hd3, ?_⟩
      · rw [hD A, if_neg hA]
        exact hd1
      · rw [hDe B]
        by_cases hB2 : B = t
        · rw [if_pos hB2, List.mem_filter]
          refine ⟨?_, ?_⟩
          · rw [← hB2]
            exact hd4
          · simp [hd2, hA]
        · rw [if_neg hB2]
          exact hd4

theorem ginv_applyCmd (g : DependencyGraph) (hg : GInv g) (c : GraphCmd) :
    GInv (applyCmd g c) := by
  cases c with
  | addModule n p md => exact ginv_addModule g hg n p md
  | addDep s t ty st d => exact ginv_addDep g hg s t ty st d
  | removeDep s t => exact ginv_removeDep g hg s t

theorem ginv_foldl (cmds : List GraphCmd) :
    ∀ g : DependencyGraph, GInv g → GInv (cmds.foldl applyCmd g) := by
  induction cmds with
  | nil => intro g hg; exact hg
  | cons c rest ih =>
    intro g hg
    exact ih (applyCmd g c) (ginv_applyCmd g hg c)

theorem consistent_of_ginv (g : DependencyGraph) (hg : GInv g) : Consistent g := by
  intro A B
  constructor
  · exact hg.mr A B
  · constructor
    · intro hB
      exact hg.depsComplete A B hB
    · rintro ⟨dd, hd1, hd2, hd3, hd4⟩
      have := (hg.depsSide A dd hd1).2
      rw [hd3] at this
      exact this

theorem add_module_found {g : DependencyGraph} {n : String} {mi : ModuleInfo}
    (h : findVal n g.modules = some mi) (p : String) (md : List (String × String)) :
    g.add_module n p md = (mi, g) := by
  simp [DependencyGraph.add_module, h]

theorem add_module_self_found (g : DependencyGraph) (n p : String)
    (md : List (String × String)) :
    findVal n ((g.add_module n p md).2).modules = some ((g.add_module n p md).1) := by
  cases h : findVal n g.modules with
  | none =>
    simp only [DependencyGraph.add_module, h]
    rw [findVal_append_of_none _ h]
    simp [findVal]
  | some mi => simp [DependencyGraph.add_module, h]

/-- Claim C7: `add_module` is idempotent — a second `add_module` call for a name
returns the very same `ModuleInfo` record as the first and leaves the graph
(hence the stored path and metadata) unchanged, regardless of the arguments of
the second call; for a fresh name the module count for that name stays at one. -/
theorem c7_add_module_idempotent :
    (∀ (g : DependencyGraph) (n p p' : String) (md md' : List (String × String)),
        ((g.add_module n p md).2).add_module n p' md' = g.add_module n p md) ∧
    (∀ (g : DependencyGraph) (n p p' : String) (md md' : List (String × String)),
        n ∉ g.moduleNames →
        ((((g.add_module n p md).2).add_module n p' md').2).moduleNames.count n = 1) := by
  have key : ∀ (g : DependencyGraph) (n p p' : String) (md md' : List (String × String)),
      ((g.add_module n p md).2).add_module n p' md' = g.add_module n p md := by
    intro g n p p' md md'
    rw [add_module_found (add_module_self_found g n p md) p' md']
  refine ⟨key, ?_⟩
  intro g n p p' md md' hn
  rw [key]
  have h : findVal n g.modules = none := by
    apply findVal_eq_none_of_not_mem
    exact hn
  simp only [DependencyGraph.add_module, h, DependencyGraph.moduleNames, List.map_append,
    List.map_cons, List.map_nil]
  rw [List.count_append]
  have hz : List.count n (List.map Prod.fst g.modules) = 0 :=
    List.count_eq_zero.mpr (by simpa [DependencyGraph.moduleNames] using hn)
  simp [hz]

/-- Witness for C7 at a concrete input: re-adding "auth" to the one-module graph
returns the original record and leaves the count at one. -/
theorem c7_witness :
    ((exAuthOnly.add_module "auth" "other" []).2).add_module "auth" "third" [] =
        exAuthOnly.add_module "auth" "other" [] ∧
    (((({} : DependencyGraph).add_module "user" "modules/user" []).2).add_module
        "user" "p" [("k", "v")]).2.moduleNames.count "user" = 1 :=
  ⟨c7_add_module_idempotent.1 exAuthOnly "auth" "other" "third" [] [],
   c7_add_module_idempotent.2 {} "user" "modules/user" "p" [] [("k", "v")] (by decide)⟩

/-- Claim C6: `add_dependency` fails with `ModuleNotFound` when the source or the
target is unregistered, checking the source first so the error deterministically
names the first missing endpoint, and a failing call leaves the graph state
unchanged. -/
theorem c6_add_dependency_module_not_found :
    (∀ (g : DependencyGraph) (s t ty st d : String), g.infoOf s = none →
        g.add_dependency s t ty st d =
          .error (.moduleNotFound ("Source module " ++ s ++ " not found"))) ∧
    (∀ (g : DependencyGraph) (s t ty st d : String), g.infoOf s ≠ none →
        g.infoOf t = none →
        g.add_dependency s t ty st d =
          .error (.moduleNotFound ("Target module " ++ t ++ " not found"))) ∧
    (∀ (g : DependencyGraph) (s t ty st d : String) (e : GraphError),
        g.add_dependency s t ty st d = .error e →
        applyCmd g (.addDep s t ty st d) = g) ∧
    (exAuthOnly.add_dependency "ghost" "auth" "import" "strong" "" =
        .error (.moduleNotFound "Source module ghost not found") ∧
      applyCmd exAuthOnly (.addDep "ghost" "auth" "import" "strong" "") = exAuthOnly) := by
  refine ⟨?_, ?_, ?_, by decide, by decide⟩
  · intro g s t ty st d h
    simp only [DependencyGraph.infoOf] at h
    simp [DependencyGraph.add_dependency, h]
  · intro g s t ty st d hs ht
    simp only [DependencyGraph.infoOf] at hs ht
    obtain ⟨ms, hms⟩ := Option.ne_none_iff_exists'.mp hs
    simp [DependencyGraph.add_dependency, hms, ht]
  · intro g s t ty st d e h
    simp [applyCmd, h]

/-- Witness for C6 at concrete inputs: a missing source is reported first, a
missing target is reported when only the target is absent, and the failing call
leaves the one-module graph unchanged. -/
theorem c6_witness :
    exAuthOnly.add_dependency "ghost" "auth" "import" "strong" "" =
        .error (.moduleNotFound ("Source module " ++ "ghost" ++ " not found")) ∧
    exAuthOnly.add_dependency "auth" "ghost" "import" "strong" "" =
        .error (.moduleNotFound ("Target module " ++ "ghost" ++ " not found")) ∧
    applyCmd exAuthOnly (.addDep "ghost" "auth" "import" "strong" "") = exAuthOnly :=
  ⟨c6_add_dependency_module_not_found.1 exAuthOnly "ghost" "auth" "import" "strong" ""
      (by decide),
   c6_add_dependency_module_not_found.2.1 exAuthOnly "auth" "ghost" "import" "strong" ""
      (by decide) (by decide),
   c6_add_dependency_module_not_found.2.2.1 exAuthOnly "ghost" "auth" "import" "strong" ""
      (.moduleNotFound ("Source module " ++ "ghost" ++ " not found")) (by decide)⟩

/-- Claim C2: cycle round-trip on the two-module cycle user → auth → user:
`has_circular_dependencies` is true, `find_circular_dependencies` returns exactly
one cycle containing both names and closed on itself (length 3, first element
equal to last), and `get_topological_order` fails with the `CircularDependency`
error instead of returning an order. -/
theorem c2_cycle_round_trip :
    exCycle2.has_circular_dependencies = true ∧
    exCycle2.find_circular_dependencies = [["user", "auth", "user"]] ∧
    (exCycle2.find_circular_dependencies.length = 1 ∧
      "user" ∈ ["user", "auth", "user"] ∧ "auth" ∈ ["user", "auth", "user"] ∧
      (["user", "auth", "user"] : List String).length = 3 ∧
      (["user", "auth", "user"] : List String).head? =
        (["user", "auth", "user"] : List String).getLast?) ∧
    exCycle2.get_topological_order =
      .error (.circularDependency
        "Cannot create topological order: circular dependencies detected"
        [["user", "auth", "user"]]) := by
  decide

/-- Claim C8 (health scoring): a non-circular module with one dependency and zero
dependents scores exactly 90, a module in a 2-cycle scores exactly 70, and in
general the score is exactly 100 minus 30 for cycle membership and minus 10 for
having no dependents — never below 60, hence never negative. -/
theorem c8_analyze_module_health :
    (((DependencyAnalyzer.mk exChain).analyze_module_health "user").dependency_count = 1 ∧
      ((DependencyAnalyzer.mk exChain).analyze_module_health "user").dependent_count = 0 ∧
      ((DependencyAnalyzer.mk exChain).analyze_module_health "user").is_circular = false ∧
      ((DependencyAnalyzer.mk exChain).analyze_module_health "user").health_score = 90) ∧
    (((DependencyAnalyzer.mk exCycle2).analyze_module_health "user").is_circular = true ∧
      ((DependencyAnalyzer.mk exCycle2).analyze_module_health "user").health_score = 70) ∧
    (∀ (a : DependencyAnalyzer) (n : String),
        60 ≤ (a.analyze_module_health n).health_score ∧
        (a.analyze_module_health n).health_score =
          100 - (if (a.analyze_module_health n).is_circular then 30 else 0) -
            (if (a.analyze_module_health n).dependent_count = 0 then 10 else 0)) := by
  refine ⟨by decide, by decide, ?_⟩
  intro a n
  dsimp only [DependencyAnalyzer.analyze_module_health]
  constructor
  · split <;> split <;> omega
  · rfl

theorem length_filter_mono {α : Type} (l : List α) (p q : α → Bool)
    (h : ∀ a, p a = true → q a = true) :
    (l.filter p).length ≤ (l.filter q).length := by
  induction l with
  | nil => simp
  | cons a rest ih =>
    by_cases hp : p a = true
    · have hq := h a hp
      simp only [List.filter_cons, hp, hq, if_true, List.length_cons]
      have := ih
      omega
    · rw [Bool.not_eq_true] at hp
      by_cases hq : q a = true
      · simp only [List.filter_cons, hp, hq, Bool.false_eq_true, if_false, if_true,
          List.length_cons]
        have := ih
        omega
      · rw [Bool.not_eq_true] at hq
        simp only [List.filter_cons, hp, hq, Bool.false_eq_true, if_false]
        exact ih

theorem length_filter_strict {α : Type} (l : List α) (p q : α → Bool)
    (h : ∀ a, p a = true → q a = true) (x : α) (hx : x ∈ l) (hqx : q x = true)
    (hpx : p x = false) : (l.filter p).length < (l.filter q).length := by
  induction l with
  | nil => simp at hx
  | cons a rest ih =>
    rcases List.mem_cons.mp hx with rfl | hx'
    · have hmono := length_filter_mono rest p q h
      simp only [List.filter_cons, hpx, hqx, Bool.false_eq_true, if_false, if_true,
        List.length_cons]
      omega
    · by_cases hp : p a = true
      · have hq := h a hp
        simp only [List.filter_cons, hp, hq, if_true, List.length_cons]
        have := ih hx'
        omega
      · rw [Bool.not_eq_true] at hp
        by_cases hq : q a = true
        · simp only [List.filter_cons, hp, hq, Bool.false_eq_true, if_false, if_true,
            List.length_cons]
          have := ih hx'
          omega
        · rw [Bool.not_eq_true] at hq
          simp only [List.filter_cons, hp, hq, Bool.false_eq_true, if_false]
          exact ih hx'

theorem ucount_le (g : DependencyGraph) (v : List String) :
    ucount g v ≤ g.modules.length := by
  unfold ucount
  calc (g.moduleNames.filter (fun m => decide (m ∉ v))).length
      ≤ g.moduleNames.length := List.length_filter_le _ _
    _ = g.modules.length := by simp [DependencyGraph.moduleNames]

theorem ucount_mono (g : DependencyGraph) (v1 v2 : List String)
    (h : ∀ x ∈ v1, x ∈ v2) : ucount g v2 ≤ ucount g v1 := by
  unfold ucount
  apply length_filter_mono
  intro a ha
  rw [decide_eq_true_eq] at ha ⊢
  intro hmem
  exact ha (h a hmem)

theorem ucount_strict (g : DependencyGraph) (v : List String) (x : String)
    (hx : x ∈ g.moduleNames) (hnv : x ∉ v) :
    ucount g (v ++ [x]) < ucount g v := by
  unfold ucount
  apply length_filter_strict _ _ _ ?_ x hx
  · rw [decide_eq_true_eq]
    exact hnv
  · rw [decide_eq_false_iff_not]
    intro hcon
    exact hcon (List.mem_append_right v (List.mem_singleton.mpr rfl))
  · intro a ha
    rw [decide_eq_true_eq] at ha ⊢
    intro hmem
    exact ha (List.mem_append_left _ hmem)

theorem wf_targets {g : DependencyGraph} (hwf : WFGraph g) :
    ∀ n : String, ∀ u ∈ g.targets n, u ∈ g.moduleNames := by
  intro n u hu
  unfold DependencyGraph.targets at hu
  cases hrow : findVal n g.dependency_matrix with
  | none => rw [hrow] at hu; simp at hu
  | some row =>
    rw [hrow] at hu
    simp only [Option.getD_some] at hu
    exact hwf.2 (n, row) (mem_of_findVal_eq_some hrow) u hu

theorem getLast?_append_singleton {α : Type} (l : List α) (a : α) :
    (l ++ [a]).getLast? = some a := by
  rw [List.getLast?_concat]

theorem chain'_snoc {R : String → String → Prop} {l : List String} {a b : String}
    (h : List.Chain' R (l ++ [a])) (hab : R a b) :
    List.Chain' R ((l ++ [a]) ++ [b]) := by
  rw [List.chain'_append]
  refine ⟨h, List.chain'_singleton b, ?_⟩
  intro x hx y hy
  rw [getLast?_append_singleton] at hx
  simp only [List.head?_cons, Option.mem_def, Option.some.injEq] at hx hy
  rw [hx, hy] at hab
  exact hab

theorem chain_reachIn (g : DependencyGraph) :
    ∀ (l : List String) (a b : String) (k : Nat),
      List.Chain' (edgeRel g) (a :: (l ++ [b])) → l.length + 1 ≤ k →
      reachIn g k a b = true := by
  intro l
  induction l with
  | nil =>
    intro a b k hchain hk
    simp only [List.nil_append] at hchain
    rw [List.chain'_pair] at hchain
    obtain ⟨k', rfl⟩ : ∃ k', k = k' + 1 := ⟨k - 1, by omega⟩
    simp only [reachIn, List.any_eq_true]
    exact ⟨b, hchain, by simp⟩
  | cons c rest ih =>
    intro a b k hchain hk
    rw [List.cons_append, List.chain'_cons] at hchain
    obtain ⟨hedge, hchain'⟩ := hchain
    obtain ⟨k', rfl⟩ : ∃ k', k = k' + 1 := ⟨k - 1, by omega⟩
    have hrest : reachIn g k' c b = true := by
      apply ih c b k' hchain'
      simp only [List.length_cons] at hk
      omega
    simp only [reachIn, List.any_eq_true]
    exact ⟨c, hedge, by simp [hrest]⟩

theorem stack_cycle_absurd (g : DependencyGraph) (hac : Acyclic g)
    (stack : List String) (node : String) (hmem : node ∈ stack)
    (hchain : List.Chain' (edgeRel g) (stack ++ [node]))
    (hnodup : stack.Nodup) (hsub : ∀ x ∈ stack, x ∈ g.moduleNames) : False := by
  obtain ⟨pre, rest, rfl⟩ := List.append_of_mem hmem
  rw [List.append_assoc] at hchain
  have hchain2 : List.Chain' (edgeRel g) (node :: (rest ++ [node])) :=
    (List.chain'_append.mp hchain).2.1
  have hndsub : (node :: rest).Nodup :=
    hnodup.sublist (List.sublist_append_right pre (node :: rest))
  have hsubm : (node :: rest) ⊆ g.moduleNames := fun x hx =>
    hsub x (List.mem_append_right pre hx)
  have hlen : (node :: rest).length ≤ g.moduleNames.length :=
    (List.subperm_of_subset hndsub hsubm).length_le
  have hlen2 : g.moduleNames.length = g.modules.length := by
    simp [DependencyGraph.moduleNames]
  have hreach : reachIn g g.modules.length node node = true := by
    apply chain_reachIn g rest node node
    · exact hchain2
    · simp only [List.length_cons] at hlen
      omega
  have hfalse := hac node (hsub node hmem)
  rw [hfalse] at hreach
  exact Bool.false_ne_true hreach

theorem depFirst_snoc (g : DependencyGraph) (l : List String) (a : String)
    (h : DepFirst g l) (ha : ∀ B ∈ g.targets a, B ∈ l) : DepFirst g (l ++ [a]) := by
  intro A hA B hB
  rcases List.mem_append.mp hA with hA' | hA'
  · exact (h A hA' B hB).trans (List.sublist_append_left l [a])
  · rw [List.mem_singleton] at hA'
    subst hA'
    have h1 : List.Sublist [B] l := List.singleton_sublist.mpr (ha B hB)
    have h2 := List.Sublist.append h1 (List.Sublist.refl [A])
    simpa using h2

theorem dropWhile_ne_head {node : String} :
    ∀ {stack : List String}, node ∈ stack →
      ∃ r, stack.dropWhile (fun x => x != node) = node :: r := by
  intro stack h
  induction stack with
  | nil => simp at h
  | cons a rest ih =>
    by_cases ha : a = node
    · subst ha
      refine ⟨rest, ?_⟩
      rw [List.dropWhile_cons]
      simp
    · have hmem : node ∈ rest := by
        rcases List.mem_cons.mp h with h1 | h1
        · exact absurd h1.symm ha
        · exact h1
      obtain ⟨r, hr⟩ := ih hmem
      refine ⟨r, ?_⟩
      rw [List.dropWhile_cons]
      have : (a != node) = true := by
        rw [bne_iff_ne]
        exact ha
      rw [this]
      simp only [if_true]
      exact hr

theorem dfsInv_init (g : DependencyGraph) : DfsInv g [] ⟨[], [], []⟩ := by
  refine ⟨?_, ?_, ?_, ?_, ?_, ?_, ?_, ?_⟩
  · exact fun x hx => absurd hx (List.not_mem_nil x)
  · exact fun x hx => absurd hx (List.not_mem_nil x)
  · exact List.nodup_nil
  · exact fun x hx => absurd hx (List.not_mem_nil x)
  · exact fun x hx => absurd hx (List.not_mem_nil x)
  · exact fun A hA => absurd hA (List.not_mem_nil A)
  · exact fun x hx => absurd hx (List.not_mem_nil x)
  · exact List.nodup_nil

theorem cdfs_spec (g : DependencyGraph) (hwf : WFGraph g) (hac : Acyclic g) :
    ∀ fuel : Nat,
      (∀ (node : String) (stack : List String) (s : DfsState),
          node ∈ g.moduleNames → DfsInv g stack s →
          List.Chain' (edgeRel g) (stack ++ [node]) →
          ucount g s.visited + 1 ≤ fuel →
          DfsPost g stack s (cdfs g fuel node stack s) ∧
            node ∈ (cdfs g fuel node stack s).order) ∧
      (∀ (ts : List String) (stack : List String) (s : DfsState),
          (∀ u ∈ ts, u ∈ g.moduleNames) → DfsInv g stack s →
          (∀ u ∈ ts, List.Chain' (edgeRel g) (stack ++ [u])) →
          ucount g s.visited + 1 ≤ fuel →
          DfsPost g stack s (runChildren (fun u st => cdfs g fuel u stack st) ts s) ∧
            ∀ u ∈ ts, u ∈ (runChildren (fun u st => cdfs g fuel u stack st) ts s).order) := by
  intro fuel
  induction fuel with
  | zero =>
    constructor
    · intro node stack s _ _ _ hfuel
      omega
    · intro ts stack s _ _ _ hfuel
      omega
  | succ fuel ih =>
    have hstep : ∀ (node : String) (stack : List String) (s : DfsState),
        node ∈ g.moduleNames → DfsInv g stack s →
        List.Chain' (edgeRel g) (stack ++ [node]) →
        ucount g s.visited + 1 ≤ fuel + 1 →
        DfsPost g stack s (cdfs g (fuel + 1) node stack s) ∧
          node ∈ (cdfs g (fuel + 1) node stack s).order := by
      intro node stack s hnode hinv hchain hfuel
      by_cases h1 : node ∈ stack
      · exact (stack_cycle_absurd g hac stack node h1 hchain hinv.stack_nodup
          (fun x hx => hinv.vis_mod x (hinv.stack_vis x hx))).elim
      · by_cases h2 : node ∈ s.visited
        · have heq : cdfs g (fuel + 1) node stack s = s := by
            simp only [cdfs]
            rw [if_neg h1, if_pos h2]
          rw [heq]
          refine ⟨⟨hinv, fun x hx => hx, fun x hx => hx, rfl⟩, ?_⟩
          rcases hinv.vis_cover node h2 with h | h
          · exact h
          · exact absurd h h1
        · have hinv1 : DfsInv g (stack ++ [node]) { s with visited := s.visited ++ [node] } := by
            refine ⟨?_, ?_, ?_, ?_, ?_, ?_, ?_, ?_⟩
            · exact fun x hx => List.mem_append_left _ (hinv.ord_vis x hx)
            · intro x hx
              rcases List.mem_append.mp hx with hx' | hx'
              · rcases hinv.vis_cover x hx' with h | h
                · exact Or.inl h
                · exact Or.inr (List.mem_append_left _ h)
              · rw [List.mem_singleton] at hx'
                subst hx'
                exact Or.inr (List.mem_append_right _ (List.mem_singleton.mpr rfl))
            · exact hinv.ord_nodup
            · intro x hx
              rcases List.mem_append.mp hx with hx' | hx'
              · exact hinv.vis_mod x hx'
              · rw [List.mem_singleton] at hx'
                subst hx'
                exact hnode
            · intro x hx
              intro hcon
              rcases List.mem_append.mp hcon with hc | hc
              · exact hinv.ord_stack x hx hc
              · rw [List.mem_singleton] at hc
                subst hc
                exact h2 (hinv.ord_vis x hx)
            · exact hinv.ord_good
            · intro x hx
              rcases List.mem_append.mp hx with hx' | hx'
              · exact List.mem_append_left _ (hinv.stack_vis x hx')
              · rw [List.mem_singleton] at hx'
                subst hx'
                exact List.mem_append_right _ (List.mem_singleton.mpr rfl)
            · rw [List.nodup_append]
              refine ⟨hinv.stack_nodup, List.nodup_singleton node, ?_⟩
              intro x hx
              rw [List.mem_singleton]
              intro hcon
              subst hcon
              exact h1 hx
          have hts : ∀ u ∈ g.targets node, u ∈ g.moduleNames := fun u hu => wf_targets hwf node u hu
          have hchain' : ∀ u ∈ g.targets node,
              List.Chain' (edgeRel g) ((stack ++ [node]) ++ [u]) :=
            fun u hu => chain'_snoc hchain hu
          have hfuel' : ucount g (s.visited ++ [node]) + 1 ≤ fuel := by
            have hdec := ucount_strict g s.visited node hnode h2
            omega
          obtain ⟨⟨hinv2, hv2, ho2, hc2⟩, hall⟩ := ih.2 (g.targets node) (stack ++ [node])
            { s with visited := s.visited ++ [node] } hts hinv1 hchain' hfuel'
          have heq : cdfs g (fuel + 1) node stack s =
              { runChildren (fun u st => cdfs g fuel u (stack ++ [node]) st) (g.targets node)
                  { s with visited := s.visited ++ [node] } with
                order := (runChildren (fun u st => cdfs g fuel u (stack ++ [node]) st)
                  (g.targets node) { s with visited := s.visited ++ [node] }).order ++ [node] } := by
            simp only [cdfs]
            rw [if_neg h1, if_neg h2]
          rw [heq]
          refine ⟨⟨?_, ?_, ?_, ?_⟩, ?_⟩
          · refine ⟨?_, ?_, ?_, ?_, ?_, ?_, ?_, ?_⟩
            · intro x hx
              rcases List.mem_append.mp hx with hx' | hx'
              · exact hinv2.ord_vis x hx'
              · rw [List.mem_singleton] at hx'
                subst hx'
                exact hv2 x (List.mem_append_right _ (List.mem_singleton.mpr rfl))
            · intro x hx
              rcases hinv2.vis_cover x hx with h | h
              · exact Or.inl (List.mem_append_left _ h)
              · rcases List.mem_append.mp h with h' | h'
                · exact Or.inr h'
                · rw [List.mem_singleton] at h'
                  subst h'
                  exact Or.inl (List.mem_append_right _ (List.mem_singleton.mpr rfl))
            · rw [List.nodup_append]
              refine ⟨hinv2.ord_nodup, List.nodup_singleton node, ?_⟩
              intro x hx
              rw [List.mem_singleton]
              intro hcon
              subst hcon
              exact hinv2.ord_stack x hx
                (List.mem_append_right _ (List.mem_singleton.mpr rfl))
            · exact hinv2.vis_mod
            · intro x hx
              rcases List.mem_append.mp hx with hx' | hx'
              · exact fun hc => hinv2.ord_stack x hx' (List.mem_append_left _ hc)
              · rw [List.mem_singleton] at hx'
                subst hx'
                exact h1
            · exact depFirst_snoc g _ node hinv2.ord_good (fun B hB => hall B hB)
            · exact fun x hx => hv2 x (List.mem_append_left _ (hinv.stack_vis x hx))
            · exact hinv.stack_nodup
          · exact fun x hx => hv2 x (List.mem_append_left _ hx)
          · exact fun x hx => List.mem_append_left _ (ho2 x hx)
          · exact hc2
          · exact List.mem_append_right _ (List.mem_singleton.mpr rfl)
    refine ⟨hstep, ?_⟩
    intro ts
    induction ts with
    | nil =>
      intro stack s _ hinv _ _
      exact ⟨⟨hinv, fun x hx => hx, fun x hx => hx, rfl⟩, by simp⟩
    | cons t rest ihts =>
      intro stack s hts hinv hchain hfuel
      obtain ⟨⟨hinv', hv', ho', hc'⟩, hmem_t⟩ :=
        hstep t stack s (hts t (List.mem_cons_self t rest)) hinv
          (hchain t (List.mem_cons_self t rest)) hfuel
      have hfuel2 : ucount g (cdfs g (fuel + 1) t stack s).visited + 1 ≤ fuel + 1 := by
        have := ucount_mono g s.visited (cdfs g (fuel + 1) t stack s).visited hv'
        omega
      obtain ⟨⟨hinv'', hv'', ho'', hc''⟩, hmem_rest⟩ :=
        ihts stack (cdfs g (fuel + 1) t stack s)
          (fun u hu => hts u (List.mem_cons_of_mem t hu)) hinv'
          (fun u hu => hchain u (List.mem_cons_of_mem t hu)) hfuel2
      refine ⟨⟨hinv'', fun x hx => hv'' x (hv' x hx), fun x hx => ho'' x (ho' x hx),
        hc''.trans hc'⟩, ?_⟩
      intro u hu
      rcases List.mem_cons.mp hu with rfl | hu'
      · exact ho'' u hmem_t
      · exact hmem_rest u hu'

theorem cdfs_closed (g : DependencyGraph) :
    ∀ fuel : Nat,
      (∀ (node : String) (stack : List String) (s : DfsState),
          (∀ c ∈ s.cycles, ClosedCycle c) →
          ∀ c ∈ (cdfs g fuel node stack s).cycles, ClosedCycle c) ∧
      (∀ (ts : List String) (stack : List String) (s : DfsState),
          (∀ c ∈ s.cycles, ClosedCycle c) →
          ∀ c ∈ (runChildren (fun u st => cdfs g fuel u stack st) ts s).cycles,
            ClosedCycle c) := by
  intro fuel
  induction fuel with
  | zero =>
    refine ⟨fun node stack s hs c hc => hs c hc, ?_⟩
    intro ts
    induction ts with
    | nil => exact fun stack s hs c hc => hs c hc
    | cons t rest ihts =>
      intro stack s hs c hc
      exact ihts stack (cdfs g 0 t stack s) (fun c' hc' => hs c' hc') c hc
  | succ fuel ih =>
    have h1 : ∀ (node : String) (stack : List String) (s : DfsState),
        (∀ c ∈ s.cycles, ClosedCycle c) →
        ∀ c ∈ (cdfs g (fuel + 1) node stack s).cycles, ClosedCycle c := by
      intro node stack s hs c hc
      simp only [cdfs] at hc
      by_cases hb1 : node ∈ stack
      · rw [if_pos hb1] at hc
        rcases List.mem_append.mp hc with hc' | hc'
        · exact hs c hc'
        · rw [List.mem_singleton] at hc'
          subst hc'
          obtain ⟨r, hr⟩ := dropWhile_ne_head hb1
          constructor
          · rw [hr]
            rw [getLast?_append_singleton]
            simp
          · rw [hr]
            simp only [List.cons_append, List.length_cons, List.length_append,
              List.length_singleton]
            omega
      · by_cases hb2 : node ∈ s.visited
        · rw [if_neg hb1, if_pos hb2] at hc
          exact hs c hc
        · rw [if_neg hb1, if_neg hb2] at hc
          exact ih.2 (g.targets node) (stack ++ [node])
            { s with visited := s.visited ++ [node] } (fun c' hc' => hs c' hc') c hc
    refine ⟨h1, ?_⟩
    intro ts
    induction ts with
    | nil => exact fun stack s hs c hc => hs c hc
    | cons t rest ihts =>
      intro stack s hs c hc
      exact ihts stack (cdfs g (fuel + 1) t stack s) (h1 t stack s hs) c hc

theorem cdfs_cycles_no_edges (g : DependencyGraph) (hE : ∀ n, g.targets n = []) :
    ∀ (fuel : Nat) (node : String) (s : DfsState),
      (cdfs g fuel node [] s).cycles = s.cycles := by
  intro fuel node s
  cases fuel with
  | zero => rfl
  | succ f =>
    simp only [cdfs]
    rw [if_neg (List.not_mem_nil node)]
    by_cases h : node ∈ s.visited
    · rw [if_pos h]
    · rw [if_neg h]
      rw [hE node]
      rfl

theorem runDfs_spec (g : DependencyGraph) (hwf : WFGraph g) (hac : Acyclic g) :
    DfsInv g [] g.runDfs ∧ (∀ n ∈ g.moduleNames, n ∈ g.runDfs.order) ∧
      g.runDfs.cycles = [] := by
  have main : ∀ ns : List String, (∀ n ∈ ns, n ∈ g.moduleNames) →
      ∀ s : DfsState, DfsInv g [] s →
      DfsInv g [] (ns.foldl (fun st n => cdfs g (g.modules.length + 1) n [] st) s) ∧
        (∀ x ∈ s.order,
          x ∈ (ns.foldl (fun st n => cdfs g (g.modules.length + 1) n [] st) s).order) ∧
        (ns.foldl (fun st n => cdfs g (g.modules.length + 1) n [] st) s).cycles = s.cycles ∧
        ∀ n ∈ ns, n ∈ (ns.foldl (fun st n => cdfs g (g.modules.length + 1) n [] st) s).order := by
    intro ns
    induction ns with
    | nil =>
      intro _ s hinv
      exact ⟨hinv, fun x hx => hx, rfl, by simp⟩
    | cons n rest ih =>
      intro hns s hinv
      have hchain : List.Chain' (edgeRel g) ([] ++ [n]) := by simp
      have hfuel : ucount g s.visited + 1 ≤ g.modules.length + 1 := by
        have := ucount_le g s.visited
        omega
      obtain ⟨⟨hinv', hv', ho', hc'⟩, hmem⟩ :=
        (cdfs_spec g hwf hac (g.modules.length + 1)).1 n [] s
          (hns n (List.mem_cons_self n rest)) hinv hchain hfuel
      obtain ⟨hinv'', ho'', hc'', hall⟩ :=
        ih (fun u hu => hns u (List.mem_cons_of_mem n hu))
          (cdfs g (g.modules.length + 1) n [] s) hinv'
      refine ⟨hinv'', fun x hx => ho'' x (ho' x hx), hc''.trans hc', ?_⟩
      intro u hu
      rcases List.mem_cons.mp hu with rfl | hu'
      · exact ho'' u hmem
      · exact hall u hu'
  obtain ⟨hinv, ho, hc, hall⟩ := main g.moduleNames (fun n h => h) ⟨[], [], []⟩ (dfsInv_init g)
  exact ⟨hinv, hall, hc⟩

theorem runDfs_closed (g : DependencyGraph) : ∀ c ∈ g.runDfs.cycles, ClosedCycle c := by
  have main : ∀ (ns : List String) (s : DfsState), (∀ c ∈ s.cycles, ClosedCycle c) →
      ∀ c ∈ (ns.foldl (fun st n => cdfs g (g.modules.length + 1) n [] st) s).cycles,
        ClosedCycle c := by
    intro ns
    induction ns with
    | nil => exact fun s hs c hc => hs c hc
    | cons n rest ih =>
      intro s hs c hc
      exact ih (cdfs g (g.modules.length + 1) n [] s)
        ((cdfs_closed g (g.modules.length + 1)).1 n [] s hs) c hc
  exact main g.moduleNames ⟨[], [], []⟩ (fun c hc => absurd hc (List.not_mem_nil c))

theorem find_no_edges (g : DependencyGraph) (hE : ∀ n, g.targets n = []) :
    g.find_circular_dependencies = [] := by
  have main : ∀ (ns : List String) (s : DfsState), s.cycles = [] →
      (ns.foldl (fun st n => cdfs g (g.modules.length + 1) n [] st) s).cycles = [] := by
    intro ns
    induction ns with
    | nil => exact fun s hs => hs
    | cons n rest ih =>
      intro s hs
      apply ih
      rw [cdfs_cycles_no_edges g hE]
      exact hs
  exact main g.moduleNames ⟨[], [], []⟩ rfl

/-- Claim C4: the four-way consistency invariant holds after every sequence of
`add_module` / `add_dependency` / `remove_dependency` calls: `B` is in
`dependency_matrix[A]` iff `A` is in `reverse_dependencies[B]` iff an edge record
with source `A` and target `B` is in `modules[A].dependencies` with the same
record in `modules[B].dependents`. -/
theorem c4_four_way_consistency :
    ∀ cmds : List GraphCmd, Consistent (applyCmds cmds) :=
  fun cmds => consistent_of_ginv _ (ginv_foldl cmds {} ginv_empty)

/-- Claim C1: on every well-formed acyclic graph `get_topological_order` succeeds
and returns a permutation of all registered module names in dependency-first
order — for every edge A→B, B appears before A; concretely, the chain
user → auth → db yields exactly [db, auth, user]. -/
theorem c1_topological_order :
    (∀ g : DependencyGraph, WFGraph g → Acyclic g →
        ∃ order, g.get_topological_order = .ok order ∧
          order.Perm g.moduleNames ∧
          ∀ A ∈ g.moduleNames, ∀ B ∈ g.targets A, List.Sublist [B, A] order) ∧
    exChain.get_topological_order = .ok ["db", "auth", "user"] := by
  constructor
  · intro g hwf hac
    obtain ⟨hinv, hall, hcyc⟩ := runDfs_spec g hwf hac
    have hnc : g.has_circular_dependencies = false := by
      unfold DependencyGraph.has_circular_dependencies
        DependencyGraph.find_circular_dependencies
      rw [hcyc]
      rfl
    refine ⟨g.runDfs.order, ?_, ?_, ?_⟩
    · unfold DependencyGraph.get_topological_order
      rw [hnc]
      simp
    · have hsub1 : g.runDfs.order ⊆ g.moduleNames :=
        fun x hx => hinv.vis_mod x (hinv.ord_vis x hx)
      have hsub2 : g.moduleNames ⊆ g.runDfs.order := fun x hx => hall x hx
      exact (List.subperm_of_subset hinv.ord_nodup hsub1).antisymm
        (List.subperm_of_subset hwf.1 hsub2)
    · intro A hA B hB
      exact hinv.ord_good A (hall A hA) B hB
  · decide

/-- Witness for C1 at the concrete chain user → auth → db. -/
theorem c1_witness :
    ∃ order, exChain.get_topological_order = .ok order ∧
      order.Perm exChain.moduleNames ∧
      ∀ A ∈ exChain.moduleNames, ∀ B ∈ exChain.targets A, List.Sublist [B, A] order :=
  c1_topological_order.1 exChain (by decide) (by decide)

/-- Claim C3: `find_circular_dependencies` finds every cycle reachable from
unvisited starting points rather than stopping at the first (two node-disjoint
2-cycles yield two cycles), each returned cycle is closed on itself (first
element equal to last, at least one edge), the 3-node cycle yields exactly one
cycle of length 4, and a graph with zero modules or zero edges has no cycles
with `has_circular_dependencies` false. -/
theorem c3_find_circular_dependencies :
    (∀ g : DependencyGraph,
        (g.modules = [] ∨ ∀ p ∈ g.dependency_matrix, p.2 = []) →
        g.find_circular_dependencies = [] ∧ g.has_circular_dependencies = false) ∧
    (∀ g : DependencyGraph, ∀ c ∈ g.find_circular_dependencies,
        c.head? = c.getLast? ∧ 2 ≤ c.length) ∧
    (exCycle3.find_circular_dependencies = [["user", "auth", "db", "user"]] ∧
      (["user", "auth", "db", "user"] : List String).length = 4) ∧
    exTwoCycles.find_circular_dependencies = [["a", "b", "a"], ["c", "d", "c"]] := by
  refine ⟨?_, ?_, by decide, by decide⟩
  · intro g h
    have hfind : g.find_circular_dependencies = [] := by
      rcases h with h | h
      · have hnames : g.moduleNames = [] := by simp [DependencyGraph.moduleNames, h]
        unfold DependencyGraph.find_circular_dependencies DependencyGraph.runDfs
        rw [hnames]
        rfl
      · apply find_no_edges
        intro n
        unfold DependencyGraph.targets
        cases hrow : findVal n g.dependency_matrix with
        | none => rfl
        | some row =>
          simp only [Option.getD_some]
          exact h (n, row) (mem_of_findVal_eq_some hrow)
    refine ⟨hfind, ?_⟩
    unfold DependencyGraph.has_circular_dependencies
    rw [hfind]
    rfl
  · intro g c hc
    exact runDfs_closed g c hc

/-- Witness for C3: the edgeless one-module graph has no cycles, and the cycle
returned for the 3-node cycle is closed with at least one edge. -/
theorem c3_witness :
    (exAuthOnly.find_circular_dependencies = [] ∧
      exAuthOnly.has_circular_dependencies = false) ∧
    ((["user", "auth", "db", "user"] : List String).head? =
        (["user", "auth", "db", "user"] : List String).getLast? ∧
      2 ≤ (["user", "auth", "db", "user"] : List String).length) :=
  ⟨c3_find_circular_dependencies.1 exAuthOnly (Or.inr (by decide)),
   c3_find_circular_dependencies.2.1 exCycle3 ["user", "auth", "db", "user"] (by decide)⟩

/-- Claim C5: `get_module_depth` returns 0 for a module with no outgoing
dependencies and otherwise one plus the maximum depth over its outgoing targets;
on the chain user → auth → db the depths are 0, 1, 2, and on a cyclic graph the
call fails with `CircularDependency` via the per-call cycle protection. -/
theorem c5_get_module_depth :
    (∀ (g : DependencyGraph) (n : String), g.targets n = [] →
        g.get_module_depth n = .ok 0) ∧
    (∀ (g : DependencyGraph) (n : String) (ds : List Nat),
        (g.targets n).mapM (fun u => depthAux g g.modules.length u [n]) = .ok ds →
        g.targets n ≠ [] →
        g.get_module_depth n = .ok (1 + ds.foldl Nat.max 0)) ∧
    (exChain.get_module_depth "db" = .ok 0 ∧
      exChain.get_module_depth "auth" = .ok 1 ∧
      exChain.get_module_depth "user" = .ok 2) ∧
    exCycle2.get_module_depth "user" =
      .error (.circularDependency "Circular dependency detected involving user"
        [["user", "auth", "user"]]) := by
  refine ⟨?_, ?_, by decide, by decide⟩
  · intro g n h
    unfold DependencyGraph.get_module_depth
    simp only [depthAux]
    rw [if_neg (List.not_mem_nil n)]
    rw [h]
    simp
  · intro g n ds hmap hne
    unfold DependencyGraph.get_module_depth
    simp only [depthAux]
    rw [if_neg (List.not_mem_nil n)]
    have hiE : (g.targets n).isEmpty = false := by
      cases hts : g.targets n with
      | nil => exact absurd hts hne
      | cons a l => rfl
    rw [hiE]
    simp only [Bool.false_eq_true, if_false, List.nil_append]
    rw [hmap]
    rfl

/-- Witness for C5: a leaf module has depth 0, and a module with one leaf
dependency has depth one more than the maximum child depth. -/
theorem c5_witness :
    exAuthOnly.get_module_depth "auth" = .ok 0 ∧
    exChain.get_module_depth "auth" = .ok (1 + ([0] : List Nat).foldl Nat.max 0) :=
  ⟨c5_get_module_depth.1 exAuthOnly "auth" (by decide),
   c5_get_module_depth.2.1 exChain "auth" [0] (by decide) (by decide)⟩

/-- Claim C9: whenever `has_circular_dependencies` is true,
`suggest_dependency_optimizations` emits a suggestion of type "critical" whose
description names the detected circular dependencies. -/
theorem c9_critical_suggestion :
    ∀ a : DependencyAnalyzer, a.graph.has_circular_dependencies = true →
      ∃ sug ∈ a.suggest_dependency_optimizations,
        sug.type = "critical" ∧ sug.issue = "Circular Dependencies Detected" ∧
        sug.description = "Found circular dependencies: " ++
          String.intercalate "; " (a.graph.find_circular_dependencies.map renderCycle) := by
  intro a h
  have heq : a.suggest_dependency_optimizations =
      [{ type := "critical", issue := "Circular Dependencies Detected",
         description := "Found circular dependencies: " ++
           String.intercalate "; " (a.graph.find_circular_dependencies.map renderCycle) }] := by
    show (if a.graph.has_circular_dependencies then
        [({ type := "critical", issue := "Circular Dependencies Detected",
            description := "Found circular dependencies: " ++
              String.intercalate "; "
                (a.graph.find_circular_dependencies.map renderCycle) } :
          OptimizationSuggestion)]
      else []) = _
    rw [if_pos h]
  rw [heq]
  exact ⟨_, List.mem_singleton.mpr rfl, rfl, rfl, rfl⟩

/-- Witness for C9 at the two-module cycle. -/
theorem c9_witness :
    ∃ sug ∈ (DependencyAnalyzer.mk exCycle2).suggest_dependency_optimizations,
      sug.type = "critical" ∧ sug.issue = "Circular Dependencies Detected" ∧
      sug.description = "Found circular dependencies: " ++
        String.intercalate "; " (exCycle2.find_circular_dependencies.map renderCycle) :=
  c9_critical_suggestion (DependencyAnalyzer.mk exCycle2) (by decide)

/-- Claim C10: `get_dependency_chain` returns the module together with its
transitive dependency closure in dependency-first order; on the chain
user → auth → db it returns exactly [db, auth, user]. -/
theorem c10_get_dependency_chain :
    exChain.get_dependency_chain "user" = ["db", "auth", "user"] ∧
    (∀ (g : DependencyGraph) (n : String), WFGraph g → Acyclic g → n ∈ g.moduleNames →
        n ∈ g.get_dependency_chain n ∧ DepFirst g (g.get_dependency_chain n) ∧
        ∀ A ∈ g.get_dependency_chain n, ∀ B ∈ g.targets A,
          B ∈ g.get_dependency_chain n) := by
  refine ⟨by decide, ?_⟩
  intro g n hwf hac hn
  have hchain : List.Chain' (edgeRel g) ([] ++ [n]) := by simp
  have hfuel : ucount g [] + 1 ≤ g.modules.length + 1 := by
    have := ucount_le g ([] : List String)
    omega
  obtain ⟨⟨hinv, hv, ho, hc⟩, hmem⟩ :=
    (cdfs_spec g hwf hac (g.modules.length + 1)).1 n [] ⟨[], [], []⟩ hn
      (dfsInv_init g) hchain hfuel
  refine ⟨hmem, hinv.ord_good, ?_⟩
  intro A hA B hB
  exact (hinv.ord_good A hA B hB).subset (List.mem_cons_self B [A])

/-- Witness for C10 at the concrete chain with module "user". -/
theorem c10_witness :
    "user" ∈ exChain.get_dependency_chain "user" ∧
    DepFirst exChain (exChain.get_dependency_chain "user") ∧
    ∀ A ∈ exChain.get_dependency_chain "user", ∀ B ∈ exChain.targets A,
      B ∈ exChain.get_dependency_chain "user" :=
  c10_get_dependency_chain.2 exChain "user" (by decide) (by decide) (by decide)

end Fascraft
